import Mathlib

/-!
Verification development for the `goods` asset pipeline.

The Rust sources are embedded shallowly:
* `src/treasury/src/treasury.rs` — paths, `relative_to`, `version_from_systime`,
  the `Registry` catalog with `store` / `fetch` / `fetch_updated` / `remove`,
  and the manifest `new` / `open` / `save` lifecycle.
* `src/src/field.rs` — the `Option` and `Sequence` (`Arc<[A]>`) asset-field
  decoders and their futures.
* `src/src/process.rs` — the decode-to-build process queue items.

Machine integers are modelled as `Nat` (with explicit `% 2 ^ 64` where the Rust
code truncates), paths as lists of components, the filesystem as an association
list from absolute paths to files carrying bytes and a modification time, and
fallible operations return `Except`.
-/

set_option autoImplicit false

namespace Goods

/-! ## Path model

Rust `std::path::Path` is modelled as a list of components, mirroring
`Path::components()` on Unix: a leading `RootDir` for absolute paths, `..`
parent components, and normal (string) components. -/

inductive Component where
  | rootDir
  | parentDir
  | normal (s : String)
deriving DecidableEq

abbrev FPath := List Component

/-- Whether a path is absolute: its first component is `RootDir`. -/
def FPath.isAbsolute (p : FPath) : Bool :=
  p.head? = some .rootDir

/-- Rust `Path::join`: appending an absolute path replaces the base. -/
def pathJoin (base p : FPath) : FPath :=
  if p.isAbsolute then p else base ++ p

/-- Length of the common component prefix of two paths: the embedding of
`pcs.by_ref().zip(&mut rcs).take_while(|(pc, rc)| pc == rc).count()`
in `relative_to` (treasury.rs). -/
def commonPrefixLen : FPath → FPath → Nat
  | pc :: ps, rc :: rs => if pc = rc then commonPrefixLen ps rs + 1 else 0
  | _, _ => 0

/-- Embedding of `relative_to(path, root)` from treasury.rs: if the common
component prefix is empty return `path` unchanged, otherwise one `..` per
component of `root` past the prefix, then the components of `path` past the
prefix. The `debug_assert!`s are debug-only and are not modelled. -/
def relative_to (path root : FPath) : FPath :=
  let prefix_length := commonPrefixLen path root
  if prefix_length = 0 then
    path
  else
    List.replicate (root.length - prefix_length) Component.parentDir
      ++ path.drop prefix_length

/-- One step of POSIX path normalization over a reversed stack of components:
`..` pops the latest normal component and is absorbed at the filesystem root. -/
def normStep (stack : List Component) (c : Component) : List Component :=
  match c with
  | .rootDir => [.rootDir]
  | .normal s => .normal s :: stack
  | .parentDir =>
    match stack with
    | .normal _ :: rest => rest
    | [.rootDir] => [.rootDir]
    | _ => .parentDir :: stack

/-- POSIX path normalization (the lexical part of `canonicalize`, with no
symlinks): resolve `..` components. -/
def normalize (p : FPath) : FPath :=
  (p.foldl normStep []).reverse

/-- Whether a component is a normal (named) one. -/
def Component.isNormal : Component → Bool
  | .normal _ => true
  | _ => false

/-- A canonical absolute path: a leading root followed by normal components
only (no `..`, mirroring the output of a successful `canonicalize`). -/
def FPath.Canon (p : FPath) : Prop :=
  p.head? = some Component.rootDir ∧ ∀ c ∈ p.tail, c.isNormal = true

instance (p : FPath) : Decidable p.Canon := by
  unfold FPath.Canon; infer_instance

/-- Rust `Path::with_extension("tmp")` on the paths the treasury builds:
their final component is a hyphenated uuid with no `.`, so the extension is
appended to the final component. -/
def withTmpExt : FPath → FPath
  | [] => []
  | [.normal s] => [.normal (s ++ ".tmp")]
  | [c] => [c]
  | c :: rest => c :: withTmpExt rest

/-! ## Registry model

The treasury's catalog and its filesystem environment.  Uuids are modelled as
opaque naturals, file modification times as nanoseconds since the Unix epoch
(Rust `SystemTime`), and file bytes as lists of naturals.  The whole core is
synchronous under one mutex, so the embedding is a sequential state machine;
in particular the source's re-acquisition of the lock and re-binding of
catalog references after an importer call is the identity here (the flat model
interprets one complete registry operation at a time). -/

abbrev Uuid := Nat

/-- Rendering of `uuid.to_hyphenated().to_string()`: an injective rendering of
the uuid as a file name containing no `.`. -/
def uuidName (u : Uuid) : String := Nat.repr u

/-- Embedding of `version_from_systime` (treasury.rs): milliseconds since the
Unix epoch, truncated from `u128` to `u64`.  Times are in nanoseconds. -/
def version_from_systime (systime : Nat) : Nat :=
  systime / 1000000 % 2 ^ 64

/-- A file: its bytes and its modification time (nanoseconds since epoch). -/
structure File where
  bytes : List Nat
  mtime : Nat
deriving DecidableEq

/-- The filesystem as seen by the registry: an association list from absolute
paths to files, a clock stamping writes, and the process working directory. -/
structure Sys where
  fs : List (FPath × File)
  clock : Nat
  cwd : FPath
deriving DecidableEq

/-- Look a file up by its exact path. -/
def fsLookup (fs : List (FPath × File)) (p : FPath) : Option File :=
  match fs.find? (fun e => e.1 = p) with
  | some e => some e.2
  | none => none

/-- Remove any entry at a path. -/
def fsErase (fs : List (FPath × File)) (p : FPath) : List (FPath × File) :=
  fs.filter (fun e => ¬ e.1 = p)

/-- Write bytes at a path; the new file's mtime is the current clock and the
clock advances. -/
def fsWrite (sys : Sys) (p : FPath) (b : List Nat) : Sys :=
  { sys with
    fs := (p, ⟨b, sys.clock⟩) :: fsErase sys.fs p
    clock := sys.clock + 1 }

/-- `std::fs::rename`: move the file at `src` to `dst`, preserving its mtime
and overwriting `dst`; a no-op when `src` is absent (the callers that tolerate
a failed rename fall through). -/
def fsRename (sys : Sys) (src dst : FPath) : Sys :=
  match fsLookup sys.fs src with
  | none => sys
  | some f => { sys with fs := (dst, f) :: fsErase (fsErase sys.fs src) dst }

/-- `std::fs::remove_file`: a no-op when the file is absent (`remove` logs and
continues on failure). -/
def fsRemove (sys : Sys) (p : FPath) : Sys :=
  { sys with fs := fsErase sys.fs p }

/-- An asset record (asset.rs, reconstructed from its uses in treasury.rs):
the durable fields plus the absolute paths rehydrated after load. -/
structure Asset where
  uuid : Uuid
  source : FPath
  source_format : String
  native_format : String
  tags : List String
  native_absolute : FPath
  source_absolute : FPath
deriving DecidableEq

/-- An importer plugin at the boundary the core consumes: given the source
file's bytes (when the source exists), it either fails, or succeeds having
written the given native bytes to the tmp path it was handed (`some`), or
succeeds without writing the tmp file (`none`). -/
structure Importer where
  run : Option (List Nat) → Except Unit (Option (List Nat))

/-- The registry guarded by the process-wide mutex (`Registry` in
treasury.rs, with `Data` inlined). -/
structure Registry where
  root : FPath
  importers_dirs : List FPath
  assets : List Asset
  importers : List ((String × String) × Importer)

/-- `Importers::get_importer(source_format, native_format)`: first entry
registered for the format pair. -/
def lookupImporter (imps : List ((String × String) × Importer))
    (source_format native_format : String) : Option Importer :=
  match imps.find? (fun e => e.1.1 = source_format ∧ e.1.2 = native_format) with
  | some e => some e.2
  | none => none

/-- The uuid-drawing loop of `store`: try `supply 0, supply 1, …` until one
collides with no catalog uuid.  The Rust loop is unbounded; with an injective
supply the first `used.length + 1` draws already contain a fresh uuid, so the
bounded search is exact. -/
def drawLoop (supply : Nat → Uuid) (used : List Uuid) : Nat → Nat → Option Uuid
  | _, 0 => none
  | start, fuel + 1 =>
    if supply start ∈ used then drawLoop supply used (start + 1) fuel
    else some (supply start)

/-- The uuid drawn by `store`: the first fresh one the supply produces (the
default is unreachable for an injective supply). -/
def drawUuid (supply : Nat → Uuid) (used : List Uuid) : Uuid :=
  (drawLoop supply used 0 (used.length + 1)).getD (supply 0)

/-- Errors of `Registry::store`. -/
inductive StoreError where
  | importerNotFound (source_format native_format : String)
  | importError
  | sourceIoError (path : FPath)
  | nativeIoError (path : FPath)
deriving DecidableEq

/-- Errors of `Registry::fetch`. -/
inductive FetchError where
  | notFound
  | nativeIoError (path : FPath)
deriving DecidableEq

/-- The name of the treasury directory under the root. -/
def treasuryDirName : String := ".treasury"

/-- The existing-asset lookup at the head of `Registry::store`: find a
catalog record matching `(source_from_root, source_format, native_format)`,
where `source_from_root` is the source resolved against the working directory
and made relative to the root. -/
def Registry.findTriple (r : Registry) (sys : Sys) (source : FPath)
    (source_format native_format : String) : Option Asset :=
  r.assets.find? (fun a =>
    a.source = relative_to (pathJoin sys.cwd source) r.root
      ∧ a.source_format = source_format ∧ a.native_format = native_format)

/-- Embedding of `Registry::store` (treasury.rs).  Returns the result together
with the final registry and filesystem state.  The trailing best-effort
manifest save (`let _ = Self::save(me)`) has its result discarded by the
source and only touches the manifest file, which is modelled separately. -/
def Registry.store (supply : Nat → Uuid) (r : Registry) (sys : Sys)
    (source : FPath) (source_format native_format : String)
    (tags : List String) : Except StoreError Uuid × Registry × Sys :=
  let source_absolute := pathJoin sys.cwd source
  let source_from_root := relative_to source_absolute r.root
  match Registry.findTriple r sys source source_format native_format with
  | some asset => (.ok asset.uuid, r, sys)
  | none =>
    let uuid := drawUuid supply (r.assets.map Asset.uuid)
    let native : FPath := [.normal treasuryDirName, .normal (uuidName uuid)]
    let native_absolute := pathJoin r.root native
    let push : Sys → Except StoreError Uuid × Registry × Sys := fun sys2 =>
      (.ok uuid,
        { r with assets := r.assets
            ++ [⟨uuid, source_from_root, source_format, native_format, tags,
                  native_absolute, source_absolute⟩] },
        sys2)
    if source_format = native_format then
      match fsLookup sys.fs source_absolute with
      | none => (.error (.sourceIoError source_absolute), r, sys)
      | some f => push (fsWrite sys native_absolute f.bytes)
    else
      match lookupImporter r.importers source_format native_format with
      | none =>
        (.error (.importerNotFound source_format native_format), r, sys)
      | some importer_entry =>
        let native_tmp_absolute := withTmpExt native_absolute
        match importer_entry.run ((fsLookup sys.fs source_absolute).map File.bytes) with
        | .error _ => (.error .importError, r, sys)
        | .ok written =>
          let sys1 := match written with
            | some b => fsWrite sys native_tmp_absolute b
            | none => sys
          match fsLookup sys1.fs native_tmp_absolute with
          | none => (.error (.nativeIoError native_absolute), r, sys1)
          | some _ => push (fsRename sys1 native_tmp_absolute native_absolute)

/-- The open native handle plus version returned by a successful fetch
(`FetchInfo` in treasury.rs); the open file handle is modelled by the bytes it
reads. -/
structure FetchInfo where
  native_path : FPath
  bytes : List Nat
  version : Nat
deriving DecidableEq

/-- Embedding of `Registry::fetch` (treasury.rs).  The staleness check
reimports when the native mtime is older than the source mtime; a failed
reimport or a missing importer falls back to the already-opened stale handle;
`version` is computed from `native_modified`, the native mtime read when the
file was first opened. -/
def Registry.fetch (r : Registry) (sys : Sys) (uuid : Uuid)
    (next_version : Nat) : Except FetchError (Option FetchInfo) × Sys :=
  match r.assets.find? (fun a => a.uuid = uuid) with
  | none => (.error .notFound, sys)
  | some asset =>
    let native_path := asset.native_absolute
    match fsLookup sys.fs native_path with
    | none => (.error (.nativeIoError native_path), sys)
    | some native_file =>
      let native_modified := native_file.mtime
      let afterStale : Except FetchError File × Sys :=
        match fsLookup sys.fs asset.source_absolute with
        | none => (.ok native_file, sys)
        | some src =>
          if native_modified < src.mtime then
            match lookupImporter r.importers asset.source_format
                asset.native_format with
            | none => (.ok native_file, sys)
            | some importer =>
              let native_tmp_path := withTmpExt native_path
              match importer.run
                  ((fsLookup sys.fs asset.source_absolute).map File.bytes) with
              | .error _ => (.ok native_file, sys)
              | .ok written =>
                let sys1 := match written with
                  | some b => fsWrite sys native_tmp_path b
                  | none => sys
                let sys2 := fsRename sys1 native_tmp_path native_path
                match fsLookup sys2.fs native_path with
                | some f2 => (.ok f2, sys2)
                | none => (.error (.nativeIoError native_path), sys2)
          else (.ok native_file, sys)
      match afterStale with
      | (.error e, sysF) => (.error e, sysF)
      | (.ok native_fileF, sysF) =>
        let version := version_from_systime native_modified
        if next_version > version then (.ok none, sysF)
        else
          (.ok (some ⟨asset.native_absolute, native_fileF.bytes, version⟩),
            sysF)

/-- The payload of `Treasury::fetch` and `Treasury::fetch_updated`. -/
structure AssetData where
  bytes : List Nat
  version : Nat
deriving DecidableEq

/-- Embedding of `Treasury::fetch_updated`: `Registry::fetch` at
`version + 1`, reading the returned handle to the end. -/
def Treasury.fetch_updated (r : Registry) (sys : Sys) (uuid : Uuid)
    (version : Nat) : Except FetchError (Option AssetData) × Sys :=
  match Registry.fetch r sys uuid (version + 1) with
  | (.error e, sys1) => (.error e, sys1)
  | (.ok none, sys1) => (.ok none, sys1)
  | (.ok (some info), sys1) => (.ok (some ⟨info.bytes, info.version⟩), sys1)

/-- Embedding of `Treasury::remove`: locate by uuid, delete the native file
(log-and-continue on failure), drop the record. -/
def Treasury.remove (r : Registry) (sys : Sys) (uuid : Uuid) :
    Registry × Sys :=
  match r.assets.findIdx? (fun a => a.uuid = uuid) with
  | none => (r, sys)
  | some index =>
    let sys1 := match r.assets[index]? with
      | some a => fsRemove sys a.native_absolute
      | none => sys
    ({ r with assets := r.assets.eraseIdx index }, sys1)

/-- One top-level registry operation, for reasoning about operation
sequences.  `list` reads but never mutates. -/
inductive Op where
  | storeOp (source : FPath) (source_format native_format : String)
      (tags : List String)
  | fetchOp (uuid : Uuid) (next_version : Nat)
  | removeOp (uuid : Uuid)
  | listOp (tags : List String) (native_format : Option String)

/-- Apply one operation to the registry state. -/
def applyOp (supply : Nat → Uuid) (st : Registry × Sys) (op : Op) :
    Registry × Sys :=
  match op with
  | .storeOp s sf nf tags => (Registry.store supply st.1 st.2 s sf nf tags).2
  | .fetchOp u v => (st.1, (Registry.fetch st.1 st.2 u v).2)
  | .removeOp u => Treasury.remove st.1 st.2 u
  | .listOp _ _ => st

/-- Run a sequence of operations. -/
def runOps (supply : Nat → Uuid) (st : Registry × Sys) (ops : List Op) :
    Registry × Sys :=
  ops.foldl (applyOp supply) st

/-- The registry constructed by `Treasury::new`: an empty catalog. -/
def emptyRegistry (root : FPath) : Registry :=
  { root := root, importers_dirs := [], assets := [], importers := [] }

/-- A concrete stale-reimport scenario: the asset whose native file (mtime 0)
is older than its source (mtime 2000000 ns). -/
def staleAsset : Asset :=
  ⟨7, [.normal "s"], "a", "b", [],
    [.rootDir, .normal ".treasury", .normal "u7"], [.rootDir, .normal "s"]⟩

/-- The registry of the stale-reimport scenario, with an `a → b` importer
whose reimport writes bytes `[2]`. -/
def staleRegistry : Registry :=
  { root := [.rootDir], importers_dirs := [], assets := [staleAsset],
    importers := [(("a", "b"), ⟨fun _ => .ok (some [2])⟩)] }

/-- The filesystem of the stale-reimport scenario: native bytes `[1]` at
mtime 0, source bytes `[9]` at mtime 2000000 ns, clock at 3000000 ns. -/
def staleSys : Sys :=
  { fs := [([.rootDir, .normal ".treasury", .normal "u7"], ⟨[1], 0⟩),
           ([.rootDir, .normal "s"], ⟨[9], 2000000⟩)],
    clock := 3000000, cwd := [.rootDir] }

/-! ## Manifest lifecycle model (Treasury::new / open / save)

The manifest round trip is modelled over a small disk: a set of existing
directories plus the manifest files with their (JSON-serialized) contents.
Serde's JSON round trip is modelled as the identity on the serialized
record. -/

/-- The serialized part of an asset record: the absolute paths are not
serialized. -/
structure AssetPersist where
  uuid : Uuid
  source : FPath
  source_format : String
  native_format : String
  tags : List String
deriving DecidableEq

/-- The manifest contents (`Data` in treasury.rs). -/
structure DataPersist where
  importers_dirs : List FPath
  assets : List AssetPersist
deriving DecidableEq

/-- The disk as seen by the manifest store: directories and manifest files. -/
structure Disk where
  dirs : List FPath
  files : List (FPath × DataPersist)

/-- Whether anything exists at a path on the disk. -/
def Disk.exists (d : Disk) (p : FPath) : Bool :=
  decide (p ∈ d.dirs) || (d.files.find? (fun e => e.1 = p)).isSome

/-- Whether a directory exists at a path. -/
def Disk.isDir (d : Disk) (p : FPath) : Bool :=
  decide (p ∈ d.dirs)

/-- Whether a file exists at a path. -/
def Disk.isFile (d : Disk) (p : FPath) : Bool :=
  (d.files.find? (fun e => e.1 = p)).isSome

/-- Read the manifest file at a path. -/
def Disk.readFile (d : Disk) (p : FPath) : Option DataPersist :=
  match d.files.find? (fun e => e.1 = p) with
  | some e => some e.2
  | none => none

/-- Create (or overwrite) the manifest file at a path. -/
def Disk.writeFile (d : Disk) (p : FPath) (data : DataPersist) : Disk :=
  { d with files := (p, data) :: d.files.filter (fun e => ¬ e.1 = p) }

/-- The serialized form of an asset record. -/
def persistAsset (a : Asset) : AssetPersist :=
  ⟨a.uuid, a.source, a.source_format, a.native_format, a.tags⟩

/-- Modelled from the spec: `Asset::update_abs_paths(root)` lives in
asset.rs, which is not under src/.  Per the spec it rehydrates the absolute
paths by joining root with the relative source and with
`.treasury/<uuid-hyphenated>` for the native path. -/
def rehydrateAsset (root : FPath) (a : AssetPersist) : Asset :=
  ⟨a.uuid, a.source, a.source_format, a.native_format, a.tags,
    pathJoin root [.normal treasuryDirName, .normal (uuidName a.uuid)],
    pathJoin root a.source⟩

/-- Errors of `Treasury::new` (collapsed to the distinctions the model can
make). -/
inductive NewError where
  | goodsAlreadyExist (path : FPath)
  | rootIsNotDir (path : FPath)
deriving DecidableEq

/-- Errors of `Treasury::open` and `Registry::save`:
the manifest could not be opened. -/
inductive OpenError where
  | goodsOpenError (path : FPath)
deriving DecidableEq

/-- The manifest path under a root. -/
def manifestPath (root : FPath) : FPath :=
  root ++ [.normal treasuryDirName, .normal "manifest.json"]

/-- The `.treasury` directory phase of `Treasury::new`: refuse a file at the
treasury path, refuse an existing manifest unless `overwrite`, create the
directory when absent. -/
def newStep2 (root : FPath) (overwrite : Bool) (d1 : Disk) :
    Except NewError (Registry × Disk) :=
  let treasury_path := root ++ [.normal treasuryDirName]
  if d1.exists treasury_path then
    if d1.isFile treasury_path then
      .error (.goodsAlreadyExist treasury_path)
    else if ¬ overwrite ∧ d1.isFile (manifestPath root) then
      .error (.goodsAlreadyExist treasury_path)
    else .ok (emptyRegistry root, d1)
  else .ok (emptyRegistry root, { d1 with dirs := treasury_path :: d1.dirs })

/-- Embedding of `Treasury::new` (treasury.rs): create the root and
`.treasury` directories, refuse an existing manifest unless `overwrite`, and
return an empty registry.  The manifest write that the source comments out is
faithfully absent: `new` writes no manifest. -/
def Treasury.new (root : FPath) (overwrite : Bool) (d : Disk) :
    Except NewError (Registry × Disk) :=
  if ¬ d.exists root then
    newStep2 root overwrite { d with dirs := root :: d.dirs }
  else if ¬ d.isDir root then .error (.rootIsNotDir root)
  else newStep2 root overwrite d

/-- Embedding of `Treasury::open` (treasury.rs): read the manifest, rehydrate
each asset's absolute paths.  Loading the importer directories touches only
the importer registry (import.rs, out of scope); the opened registry carries
no importer entries here. -/
def Treasury.open' (root : FPath) (d : Disk) : Except OpenError Registry :=
  match d.readFile (manifestPath root) with
  | none => .error (.goodsOpenError (manifestPath root))
  | some data =>
    .ok { root := root
          importers_dirs := data.importers_dirs
          assets := data.assets.map (rehydrateAsset root)
          importers := [] }

/-- Embedding of `Registry::save` (treasury.rs): serialize the catalog to the
manifest path; `File::create` fails when the `.treasury` directory is
missing. -/
def Registry.save (r : Registry) (d : Disk) : Except OpenError Disk :=
  if r.root ++ [.normal treasuryDirName] ∈ d.dirs then
    .ok (d.writeFile (manifestPath r.root)
      ⟨r.importers_dirs, r.assets.map persistAsset⟩)
  else .error (.goodsOpenError (manifestPath r.root))

/-! ## Field resolver model (field.rs)

A completed-by-time model of futures: a future resolves at `time` to
`result`, and polling before that time is pending.  `Sequence` decoding
(`AssetField<K> for Arc<[A]>`) collects element futures into `TryJoinAll`,
whose contract — resolve in input order when all elements succeed,
short-circuit on the first error — comes from the futures crate (not in
src/) and is modelled from the spec. -/

/-- A (model) future: pending until `time`, then ready with `result`. -/
structure MFut (E A : Type) where
  time : Nat
  result : Except E A

/-- Poll a model future at an instant. -/
def pollAt {E A : Type} (f : MFut E A) (t : Nat) : Option (Except E A) :=
  if f.time ≤ t then some f.result else none

/-- Whether an `Except` is an error. -/
def isErr {E A : Type} : Except E A → Bool
  | .error _ => true
  | .ok _ => false

/-- The ok values of a list of futures, in input order. -/
def extractOks {E A : Type} (ch : List (MFut E A)) : List A :=
  ch.filterMap (fun c => c.result.toOption)

/-- The first error among the futures already completed at time `t`. -/
def firstErrAt {E A : Type} : List (MFut E A) → Nat → Option E
  | [], _ => none
  | c :: cs, t =>
    if c.time ≤ t then
      match c.result with
      | .error e => some e
      | .ok _ => firstErrAt cs t
    else firstErrAt cs t

/-- Modelled from the spec: the polling loop of `TryJoinAll` (futures crate,
not in src/).  At each instant, short-circuit on the first completed error;
succeed with all element values in input order once every element completed;
otherwise keep polling. -/
def joinStep {E A : Type} (ch : List (MFut E A)) : Nat → Nat →
    Option (Except E (List A))
  | _, 0 => none
  | t, fuel + 1 =>
    match firstErrAt ch t with
    | some e => some (.error e)
    | none =>
      if ch.all (fun c => c.time ≤ t) then some (.ok (extractOks ch))
      else joinStep ch (t + 1) fuel

/-- Modelled from the spec: the eventual outcome of `TryJoinAll`, polling
from time 0 with enough fuel to pass every completion time.  `none` means the
combined future never resolves. -/
def tryJoinAll {E A : Type} (ch : List (MFut E A)) :
    Option (Except E (List A)) :=
  joinStep ch 0 ((ch.map MFut.time).foldr max 0 + 1)

/-- Embedding of `AssetField<K> for Arc<[A]>::decode` (field.rs): map each
element info through the element decoder and collect into `TryJoinAll`. -/
def sequenceDecode {I E A : Type} (decode : I → MFut E A) (info : List I) :
    List (MFut E A) :=
  info.map decode

/-- Embedding of `AssetField<K> for Option<A>::decode` (field.rs):
`None` yields `MaybeTryFuture(None)`, `Some` delegates to the element
decoder. -/
def optionDecode {I E A : Type} (decode : I → MFut E A) (info : Option I) :
    Option (MFut E A) :=
  match info with
  | none => none
  | some i => some (decode i)

/-- Embedding of `MaybeTryFuture::poll` (field.rs): an empty future is ready
immediately with `Ok(None)`; otherwise delegate to the inner future and wrap
its success in `Some`. -/
def maybePoll {E A : Type} (mf : Option (MFut E A)) (t : Nat) :
    Option (Except E (Option A)) :=
  match mf with
  | none => some (.ok none)
  | some fut =>
    match pollAt fut t with
    | none => none
    | some result => some (result.map some)

/-! ## Process queue model (process.rs)

A work item carries the decode-stage result; `run(ctx)` applies the asset's
synchronous build to a successful result, wraps a build error as
`Error::Asset`, and writes the outcome into the handle's slot.  `Handle::set`
(handle.rs, not in src/) is modelled from the spec as the single write into
the result slot. -/

/-- The typed error of a process outcome (`Error<A>` in the loader): either
an error carried over from the decode stage or a wrapped build error
(`Error::Asset`). -/
inductive PError (D B : Type) where
  | decodeStage (e : D)
  | asset (e : B)

/-- A queued work item (`Process` in process.rs): the decode-stage result for
the handle's slot. -/
structure ProcessM (R D B : Type) where
  result : Except (PError D B) R

/-- Embedding of `ProcessSlot::set` (process.rs): push a work item holding
the result onto the queue. -/
def processSlotSet {R D B : Type} (queue : List (ProcessM R D B))
    (result : Except (PError D B) R) : List (ProcessM R D B) :=
  queue ++ [⟨result⟩]

/-- Embedding of `AnyProcess::run` for `Process` (process.rs), with
`Handle::set` modelled from the spec as the write into the slot: apply the
synchronous build to a successful decode result (wrapping a build failure as
`Error::Asset`) and set the slot to the outcome. -/
def processRun {R D B C V : Type} (build : R → C → Except B V)
    (p : ProcessM R D B) (ctx : C)
    (_slot : Option (Except (PError D B) V)) :
    Option (Except (PError D B) V) :=
  some (p.result.bind fun asset => (build asset ctx).mapError PError.asset)

/-! ## Theorems -/

/-- Claim C8: `Option::decode(None)` is ready at the very first poll with
`Ok(None)` and does not depend on the inner decoder (it is never invoked);
`Option::decode(Some(info))` delegates to the inner decoder and wraps its
successful result in `Some`. -/
theorem c8_option_decode_lift (I E A : Type) (d d' : I → MFut E A) (i : I)
    (t : Nat) (a : A) :
    maybePoll (optionDecode d none) 0 = some (.ok none)
    ∧ optionDecode d none = optionDecode d' none
    ∧ optionDecode d (some i) = some (d i)
    ∧ (pollAt (d i) t = some (.ok a) →
        maybePoll (optionDecode d (some i)) t = some (.ok (some a))) := by
  refine ⟨rfl, rfl, rfl, fun h => ?_⟩
  simp [maybePoll, optionDecode, h, Except.map]

/-- Witness for C8 at a concrete inner decoder and info. -/
theorem c8_witness :
    maybePoll (optionDecode (fun n : Nat => (⟨2, .ok (n + 1)⟩ : MFut Unit Nat))
        none) 0 = some (.ok none)
    ∧ optionDecode (fun n : Nat => (⟨2, .ok (n + 1)⟩ : MFut Unit Nat)) none
        = optionDecode (fun n : Nat => (⟨0, .ok n⟩ : MFut Unit Nat)) none
    ∧ optionDecode (fun n : Nat => (⟨2, .ok (n + 1)⟩ : MFut Unit Nat)) (some 4)
        = some ⟨2, .ok 5⟩
    ∧ maybePoll (optionDecode
        (fun n : Nat => (⟨2, .ok (n + 1)⟩ : MFut Unit Nat)) (some 4)) 3
        = some (.ok (some 5)) := by
  have h := c8_option_decode_lift Nat Unit Nat
    (fun n => ⟨2, .ok (n + 1)⟩) (fun n => ⟨0, .ok n⟩) 4 3 5
  exact ⟨h.1, h.2.1, h.2.2.1, h.2.2.2 rfl⟩

/-- Claim C9: running a queued work item applies the synchronous build to a
successful decode result and writes the outcome (built value or wrapped build
error) into the slot; a decode-stage error is written through unchanged
without invoking build; and in every case the slot is set (exactly the one
write `run` performs). -/
theorem c9_process_run (R D B C V : Type) (build build' : R → C → Except B V)
    (p : ProcessM R D B) (ctx : C) (slot : Option (Except (PError D B) V))
    (a : R) (e : PError D B) :
    (p.result = .ok a →
      processRun build p ctx slot = some ((build a ctx).mapError PError.asset))
    ∧ (p.result = .error e →
        processRun build p ctx slot = some (.error e)
        ∧ processRun build p ctx slot = processRun build' p ctx slot)
    ∧ (processRun build p ctx slot).isSome = true := by
  refine ⟨fun h => ?_, fun h => ⟨?_, ?_⟩, rfl⟩ <;>
    simp [processRun, h, Except.bind]

/-- Witness for C9: a successful decode result is built in the context, and a
decode-stage error is passed through. -/
theorem c9_witness :
    processRun (fun r c : Nat => (.ok (r + c) : Except String Nat))
      (⟨.ok 2⟩ : ProcessM Nat Unit String) 3 none = some (.ok 5)
    ∧ processRun (fun r c : Nat => (.ok (r + c) : Except String Nat))
      (⟨.error (.decodeStage ())⟩ : ProcessM Nat Unit String) 3 none
      = some (.error (.decodeStage ())) := by
  have h1 := (c9_process_run Nat Unit String Nat Nat
    (fun r c => .ok (r + c)) (fun r c => .ok (r + c))
    ⟨.ok 2⟩ 3 none 2 (.decodeStage ())).1 rfl
  have h2 := ((c9_process_run Nat Unit String Nat Nat
    (fun r c => .ok (r + c)) (fun r c => .ok (r + c))
    ⟨.error (.decodeStage ())⟩ 3 none 2 (.decodeStage ())).2.1 rfl).1
  exact ⟨h1, h2⟩

theorem fsWrite_cwd (sys : Sys) (p : FPath) (b : List Nat) :
    (fsWrite sys p b).cwd = sys.cwd := rfl

theorem fsRename_cwd (sys : Sys) (src dst : FPath) :
    (fsRename sys src dst).cwd = sys.cwd := by
  unfold fsRename; split <;> rfl

/-- Exhaustive shape of a `store` call: return the matching asset's uuid with
nothing changed, or an error with the registry unchanged, or append exactly
one record whose uuid is the drawn one and whose triple is the requested
one. -/
theorem store_shape (supply : Nat → Uuid) (r : Registry) (sys : Sys)
    (source : FPath) (sf nf : String) (tags : List String) :
    (∃ a, Registry.findTriple r sys source sf nf = some a
        ∧ Registry.store supply r sys source sf nf tags = (.ok a.uuid, r, sys))
    ∨ (∃ e sys2,
        Registry.store supply r sys source sf nf tags = (.error e, r, sys2))
    ∨ (∃ A sys2, Registry.store supply r sys source sf nf tags
          = (.ok A.uuid, { r with assets := r.assets ++ [A] }, sys2)
        ∧ Registry.findTriple r sys source sf nf = none
        ∧ A.uuid = drawUuid supply (r.assets.map Asset.uuid)
        ∧ A.source = relative_to (pathJoin sys.cwd source) r.root
        ∧ A.source_format = sf ∧ A.native_format = nf
        ∧ sys2.cwd = sys.cwd) := by
  simp only [Registry.store]
  rcases hft : Registry.findTriple r sys source sf nf with _ | a
  · dsimp only
    by_cases hsf : sf = nf
    · rw [if_pos hsf]
      rcases hlk : fsLookup sys.fs (pathJoin sys.cwd source) with _ | f
      · exact Or.inr (Or.inl ⟨_, _, rfl⟩)
      · dsimp only
        refine Or.inr (Or.inr
          ⟨⟨drawUuid supply (r.assets.map Asset.uuid),
            relative_to (pathJoin sys.cwd source) r.root, sf, nf, tags,
            pathJoin r.root [Component.normal treasuryDirName,
              Component.normal (uuidName (drawUuid supply
                (r.assets.map Asset.uuid)))],
            pathJoin sys.cwd source⟩, _, rfl, rfl, rfl, rfl, rfl, rfl, rfl⟩)
    · rw [if_neg hsf]
      rcases hli : lookupImporter r.importers sf nf with _ | imp
      · exact Or.inr (Or.inl ⟨_, _, rfl⟩)
      · dsimp only
        rcases him : imp.run (Option.map File.bytes (fsLookup sys.fs
            (pathJoin sys.cwd source))) with _ | written
        · exact Or.inr (Or.inl ⟨_, _, rfl⟩)
        · dsimp only
          split
          · exact Or.inr (Or.inl ⟨_, _, rfl⟩)
          · refine Or.inr (Or.inr
              ⟨⟨drawUuid supply (r.assets.map Asset.uuid),
                relative_to (pathJoin sys.cwd source) r.root, sf, nf, tags,
                pathJoin r.root [Component.normal treasuryDirName,
                  Component.normal (uuidName (drawUuid supply
                    (r.assets.map Asset.uuid)))],
                pathJoin sys.cwd source⟩, _, rfl, rfl, rfl, rfl, rfl, rfl, ?_⟩)
            cases written <;> simp [fsRename_cwd, fsWrite_cwd]
  · exact Or.inl ⟨a, rfl, rfl⟩

/-- Claim C10: a `store` call that returns an error leaves the registry — in
particular the catalog — exactly as it was: no record carrying the drawn uuid
is appended on any error path. -/
theorem c10_store_error_no_append (supply : Nat → Uuid) (r : Registry)
    (sys : Sys) (source : FPath) (source_format native_format : String)
    (tags : List String) (res : Except StoreError Uuid) (r' : Registry)
    (sys' : Sys)
    (heq : Registry.store supply r sys source source_format native_format
      tags = (res, r', sys'))
    (e : StoreError) (hres : res = .error e) : r' = r := by
  subst hres
  rcases store_shape supply r sys source source_format native_format tags with
    ⟨a, -, hout⟩ | ⟨e2, sys2, hout⟩ | ⟨A, sys2, hout, -, -, -, -, -, -⟩ <;>
    rw [heq] at hout <;> simp only [Prod.mk.injEq] at hout
  · exact absurd hout.1 (by simp)
  · exact hout.2.1
  · exact absurd hout.1 (by simp)

/-- Witness for C10: with no importer registered, a cross-format store fails
with `ImporterNotFound` and the registry is unchanged. -/
theorem c10_witness :
    Registry.store (fun n => n) (emptyRegistry [Component.rootDir])
      ⟨[], 0, [Component.rootDir]⟩ [Component.normal "s"] "a" "b" []
      = (.error (.importerNotFound "a" "b"), emptyRegistry [Component.rootDir],
          ⟨[], 0, [Component.rootDir]⟩)
    ∧ (Registry.store (fun n => n) (emptyRegistry [Component.rootDir])
        ⟨[], 0, [Component.rootDir]⟩ [Component.normal "s"] "a" "b" []).2.1
      = emptyRegistry [Component.rootDir] := by
  refine ⟨rfl, ?_⟩
  exact c10_store_error_no_append (fun n => n)
    (emptyRegistry [Component.rootDir]) ⟨[], 0, [Component.rootDir]⟩
    [Component.normal "s"] "a" "b" []
    (.error (.importerNotFound "a" "b")) (emptyRegistry [Component.rootDir])
    ⟨[], 0, [Component.rootDir]⟩ rfl (.importerNotFound "a" "b") rfl

theorem find?_append_of_none {α : Type} (p : α → Bool) (l₁ l₂ : List α)
    (h : l₁.find? p = none) : (l₁ ++ l₂).find? p = l₂.find? p := by
  induction l₁ with
  | nil => rfl
  | cons x xs ih =>
    cases hp : p x with
    | true =>
      rw [List.find?_cons_of_pos _ hp] at h
      exact absurd h (by simp)
    | false =>
      rw [List.find?_cons_of_neg _ (by simp [hp])] at h
      rw [List.cons_append, List.find?_cons_of_neg _ (by simp [hp])]
      exact ih h

/-- Claim C2: when the catalog already holds an asset with the requested
`(source_from_root, source_format, native_format)` triple, `store` returns
that asset's uuid and changes nothing; consequently a second store directly
after a successful one returns the same uuid and appends nothing. -/
theorem c2_store_idempotent :
    (∀ (supply : Nat → Uuid) (r : Registry) (sys : Sys) (source : FPath)
        (sf nf : String) (tags : List String) (a : Asset),
      Registry.findTriple r sys source sf nf = some a →
      Registry.store supply r sys source sf nf tags = (.ok a.uuid, r, sys))
    ∧ (∀ (supply supply2 : Nat → Uuid) (r : Registry) (sys : Sys)
        (source : FPath) (sf nf : String) (tags tags2 : List String)
        (u : Uuid) (r' : Registry) (sys' : Sys),
      Registry.store supply r sys source sf nf tags = (.ok u, r', sys') →
      Registry.store supply2 r' sys' source sf nf tags2
        = (.ok u, r', sys')) := by
  constructor
  · intro supply r sys source sf nf tags a h
    simp only [Registry.store, h]
  · intro supply supply2 r sys source sf nf tags tags2 u r' sys' h
    rcases store_shape supply r sys source sf nf tags with
      ⟨a, hft, hout⟩ | ⟨e, sys2, hout⟩ |
      ⟨A, sys2, hout, hftn, huuid, hsrc, hsf2, hnf2, hcwd⟩
    · rw [h] at hout
      simp only [Prod.mk.injEq, Except.ok.injEq] at hout
      obtain ⟨hu, hr, hsys⟩ := hout
      subst hu; subst hr; subst hsys
      simp only [Registry.store, hft]
    · rw [h] at hout
      simp at hout
    · rw [h] at hout
      simp only [Prod.mk.injEq, Except.ok.injEq] at hout
      obtain ⟨hu, hr, hsys⟩ := hout
      subst hu; subst hr
      rw [hsys]
      have hft2 : Registry.findTriple
          { r with assets := r.assets ++ [A] } sys2 source sf nf = some A := by
        unfold Registry.findTriple at hftn ⊢
        dsimp only
        rw [hcwd]
        rw [find?_append_of_none _ _ _ hftn]
        rw [List.find?_cons_of_pos _ (by simp [hsrc, hsf2, hnf2])]
      simp only [Registry.store, hft2]

/-- Witness for C2: a concrete identity-format store into an empty registry,
then a second store of the same triple returning the same uuid with the
catalog unchanged. -/
theorem c2_witness :
    Registry.store (fun n => n)
      (emptyRegistry [Component.rootDir])
      ⟨[([Component.rootDir, Component.normal "s"], ⟨[7], 5⟩)], 9,
        [Component.rootDir]⟩
      [Component.normal "s"] "bin" "bin" []
      = (.ok 0,
          { root := [Component.rootDir], importers_dirs := [],
            assets := [⟨0, [Component.normal "s"], "bin", "bin", [],
              [Component.rootDir, Component.normal ".treasury",
                Component.normal "0"],
              [Component.rootDir, Component.normal "s"]⟩],
            importers := [] },
          ⟨[([Component.rootDir, Component.normal ".treasury",
                Component.normal "0"], ⟨[7], 9⟩),
             ([Component.rootDir, Component.normal "s"], ⟨[7], 5⟩)], 10,
            [Component.rootDir]⟩)
    ∧ Registry.store (fun n => n)
      { root := [Component.rootDir], importers_dirs := [],
        assets := [⟨0, [Component.normal "s"], "bin", "bin", [],
          [Component.rootDir, Component.normal ".treasury",
            Component.normal "0"],
          [Component.rootDir, Component.normal "s"]⟩],
        importers := [] }
      ⟨[([Component.rootDir, Component.normal ".treasury",
            Component.normal "0"], ⟨[7], 9⟩),
         ([Component.rootDir, Component.normal "s"], ⟨[7], 5⟩)], 10,
        [Component.rootDir]⟩
      [Component.normal "s"] "bin" "bin" ["extra"]
      = (.ok 0,
          { root := [Component.rootDir], importers_dirs := [],
            assets := [⟨0, [Component.normal "s"], "bin", "bin", [],
              [Component.rootDir, Component.normal ".treasury",
                Component.normal "0"],
              [Component.rootDir, Component.normal "s"]⟩],
            importers := [] },
          ⟨[([Component.rootDir, Component.normal ".treasury",
                Component.normal "0"], ⟨[7], 9⟩),
             ([Component.rootDir, Component.normal "s"], ⟨[7], 5⟩)], 10,
            [Component.rootDir]⟩) := by
  constructor
  · rfl
  · exact c2_store_idempotent.2 (fun n => n) (fun n => n)
      (emptyRegistry [Component.rootDir])
      ⟨[([Component.rootDir, Component.normal "s"], ⟨[7], 5⟩)], 9,
        [Component.rootDir]⟩
      [Component.normal "s"] "bin" "bin" [] ["extra"] 0 _ _ rfl

theorem drawLoop_some_not_mem (supply : Nat → Uuid) (used : List Uuid) :
    ∀ (fuel start : Nat) (u : Uuid),
      drawLoop supply used start fuel = some u → u ∉ used := by
  intro fuel
  induction fuel with
  | zero => intro start u h; simp [drawLoop] at h
  | succ n ih =>
    intro start u h
    unfold drawLoop at h
    split at h
    · exact ih _ _ h
    · next hmem =>
      simp only [Option.some.injEq] at h
      subst h
      exact hmem

theorem drawLoop_none_mem (supply : Nat → Uuid) (used : List Uuid) :
    ∀ (fuel start : Nat), drawLoop supply used start fuel = none →
      ∀ k, k < fuel → supply (start + k) ∈ used := by
  intro fuel
  induction fuel with
  | zero => intro start h k hk; omega
  | succ n ih =>
    intro start h k hk
    unfold drawLoop at h
    split at h
    · next hmem =>
      cases k with
      | zero => simpa using hmem
      | succ m =>
        have hmem2 := ih (start + 1) h m (by omega)
        have harith : start + 1 + m = start + (m + 1) := by omega
        rw [harith] at hmem2
        exact hmem2
    · simp at h

/-- The uuid-drawing loop of `store` never returns a uuid already in the
catalog (for an injective supply, by pigeonhole the bounded search always
succeeds). -/
theorem drawUuid_fresh (supply : Nat → Uuid)
    (hinj : Function.Injective supply) (used : List Uuid) :
    drawUuid supply used ∉ used := by
  unfold drawUuid
  rcases hdl : drawLoop supply used 0 (used.length + 1) with _ | u
  · exfalso
    have hall : ∀ k, k < used.length + 1 → supply k ∈ used := by
      intro k hk
      simpa using drawLoop_none_mem supply used _ 0 hdl k hk
    have hsub : (Finset.range (used.length + 1)).image supply
        ⊆ used.toFinset := by
      intro x hx
      simp only [Finset.mem_image, Finset.mem_range] at hx
      obtain ⟨k, hk, rfl⟩ := hx
      exact List.mem_toFinset.mpr (hall k hk)
    have hcard := Finset.card_le_card hsub
    rw [Finset.card_image_of_injective _ hinj, Finset.card_range] at hcard
    have hlen := used.toFinset_card_le
    omega
  · simpa using drawLoop_some_not_mem supply used _ _ _ hdl

theorem store_preserves_uuid_nodup (supply : Nat → Uuid)
    (hinj : Function.Injective supply) (r : Registry) (sys : Sys)
    (source : FPath) (sf nf : String) (tags : List String)
    (hpw : List.Pairwise (fun a b : Asset => a.uuid ≠ b.uuid) r.assets) :
    List.Pairwise (fun a b : Asset => a.uuid ≠ b.uuid)
      ((Registry.store supply r sys source sf nf tags).2.1.assets) := by
  rcases store_shape supply r sys source sf nf tags with
    ⟨a, -, hout⟩ | ⟨e, sys2, hout⟩ | ⟨A, sys2, hout, -, huuid, -, -, -, -⟩ <;>
    rw [hout]
  · exact hpw
  · exact hpw
  · dsimp only
    rw [List.pairwise_append]
    refine ⟨hpw, by simp, ?_⟩
    intro x hx y hy
    simp only [List.mem_singleton] at hy
    subst hy
    rw [huuid]
    intro hEq
    have hx' : x.uuid ∈ r.assets.map Asset.uuid :=
      List.mem_map_of_mem _ hx
    rw [hEq] at hx'
    exact drawUuid_fresh supply hinj _ hx'

theorem remove_preserves_uuid_nodup (r : Registry) (sys : Sys) (u : Uuid)
    (hpw : List.Pairwise (fun a b : Asset => a.uuid ≠ b.uuid) r.assets) :
    List.Pairwise (fun a b : Asset => a.uuid ≠ b.uuid)
      ((Treasury.remove r sys u).1.assets) := by
  unfold Treasury.remove
  split
  · exact hpw
  · exact List.Pairwise.sublist (List.eraseIdx_sublist _ _) hpw

theorem applyOp_preserves_uuid_nodup (supply : Nat → Uuid)
    (hinj : Function.Injective supply) (st : Registry × Sys) (op : Op)
    (hpw : List.Pairwise (fun a b : Asset => a.uuid ≠ b.uuid) st.1.assets) :
    List.Pairwise (fun a b : Asset => a.uuid ≠ b.uuid)
      ((applyOp supply st op).1.assets) := by
  cases op with
  | storeOp s sf nf tags =>
    exact store_preserves_uuid_nodup supply hinj st.1 st.2 s sf nf tags hpw
  | fetchOp u v => exact hpw
  | removeOp u => exact remove_preserves_uuid_nodup st.1 st.2 u hpw
  | listOp t n => exact hpw

theorem runOps_preserves_uuid_nodup (supply : Nat → Uuid)
    (hinj : Function.Injective supply) :
    ∀ (ops : List Op) (st : Registry × Sys),
      List.Pairwise (fun a b : Asset => a.uuid ≠ b.uuid) st.1.assets →
      List.Pairwise (fun a b : Asset => a.uuid ≠ b.uuid)
        ((runOps supply st ops).1.assets) := by
  intro ops
  induction ops with
  | nil => intro st h; exact h
  | cons op rest ih =>
    intro st h
    exact ih _ (applyOp_preserves_uuid_nodup supply hinj st op h)

/-- Claim C5: starting from an empty catalog, any sequence of registry
operations leaves the catalog with pairwise distinct uuids (the injective
supply models the v4 draw-until-fresh loop always finding a fresh uuid). -/
theorem c5_uuid_unique (supply : Nat → Uuid)
    (hinj : Function.Injective supply) (r0 : Registry) (sys0 : Sys)
    (hempty : r0.assets = []) (ops : List Op) :
    List.Pairwise (fun a b : Asset => a.uuid ≠ b.uuid)
      ((runOps supply (r0, sys0) ops).1.assets) := by
  apply runOps_preserves_uuid_nodup supply hinj
  rw [show (r0, sys0).1 = r0 from rfl, hempty]
  exact List.Pairwise.nil

/-- Witness for C5: a concrete run of a store followed by a remove. -/
theorem c5_witness :
    List.Pairwise (fun a b : Asset => a.uuid ≠ b.uuid)
      ((runOps (fun n => n)
        (emptyRegistry [Component.rootDir],
          ⟨[([Component.rootDir, Component.normal "s"], ⟨[1], 0⟩)], 5,
            [Component.rootDir]⟩)
        [.storeOp [Component.normal "s"] "bin" "bin" [],
          .removeOp 3]).1.assets) :=
  c5_uuid_unique (fun n => n) (fun _ _ h => h) _ _ rfl _

theorem fetch_finish_spec (v0 nv : Nat) (np : FPath) (b : List Nat)
    (sysX : Sys) (res : Option FetchInfo) (sysF : Sys)
    (h : (if nv > v0 then ((.ok none : Except FetchError (Option FetchInfo)),
            sysX)
          else (.ok (some ⟨np, b, v0⟩), sysX)) = (.ok res, sysF)) :
    (res = none ↔ v0 < nv) ∧ ∀ i, res = some i → i.version = v0 := by
  split at h
  · next hc =>
    simp only [Prod.mk.injEq, Except.ok.injEq] at h
    obtain ⟨h1, -⟩ := h
    subst h1
    exact ⟨by simpa using hc, fun i hi => by simp at hi⟩
  · next hc =>
    simp only [Prod.mk.injEq, Except.ok.injEq] at h
    obtain ⟨h1, -⟩ := h
    subst h1
    constructor
    · constructor
      · intro hn; simp at hn
      · intro hv; omega
    · intro i hi
      simp only [Option.some.injEq] at hi
      subst hi
      rfl

/-- In any non-error outcome of `Registry::fetch`, the returned version is
`version_from_systime` of the native file's mtime as read at entry, and
`None` is returned exactly when `next_version` exceeds it. -/
theorem fetch_ok_version (r : Registry) (sys : Sys) (u : Uuid) (nv : Nat)
    (a : Asset) (f : File)
    (hfind : r.assets.find? (fun x => x.uuid = u) = some a)
    (hnat : fsLookup sys.fs a.native_absolute = some f) :
    ∀ (res : Option FetchInfo) (sysF : Sys),
      Registry.fetch r sys u nv = (.ok res, sysF) →
      (res = none ↔ version_from_systime f.mtime < nv)
      ∧ ∀ i, res = some i → i.version = version_from_systime f.mtime := by
  intro res sysF h
  simp only [Registry.fetch] at h
  rw [hfind] at h
  dsimp only at h
  rw [hnat] at h
  dsimp only at h
  rcases hsrc : fsLookup sys.fs a.source_absolute with _ | src <;>
    rw [hsrc] at h <;> dsimp only at h
  · exact fetch_finish_spec _ _ _ _ _ _ _ h
  · by_cases hstale : f.mtime < src.mtime
    · rw [if_pos hstale] at h
      rcases hli : lookupImporter r.importers a.source_format
          a.native_format with _ | imp <;> rw [hli] at h <;> dsimp only at h
      · exact fetch_finish_spec _ _ _ _ _ _ _ h
      · rcases him : imp.run (Option.map File.bytes (some src)) with
            _ | written <;>
          rw [him] at h <;> dsimp only at h
        · exact fetch_finish_spec _ _ _ _ _ _ _ h
        · split at h
          · simp at h
          · exact fetch_finish_spec _ _ _ _ _ _ _ h
    · rw [if_neg hstale] at h
      exact fetch_finish_spec _ _ _ _ _ _ _ h

/-- Claim C3: for an asset present in the catalog with its native file
openable, a non-error `fetch_updated(uuid, v)` returns `None` exactly when
the asset's current version is below `v + 1`, and any returned data carries
`version ≥ v` (indeed the current version itself). -/
theorem c3_fetch_updated_contract (r : Registry) (sys : Sys) (u : Uuid)
    (v : Nat) (a : Asset) (f : File)
    (hfind : r.assets.find? (fun x => x.uuid = u) = some a)
    (hnat : fsLookup sys.fs a.native_absolute = some f) :
    ∀ (res : Option AssetData) (sysF : Sys),
      Treasury.fetch_updated r sys u v = (.ok res, sysF) →
      (res = none ↔ version_from_systime f.mtime < v + 1)
      ∧ ∀ d, res = some d → v ≤ d.version
          ∧ d.version = version_from_systime f.mtime := by
  intro res sysF h
  unfold Treasury.fetch_updated at h
  rcases hf : Registry.fetch r sys u (v + 1) with ⟨fres, fsys⟩
  rw [hf] at h
  cases fres with
  | error e => simp at h
  | ok o =>
    have hspec := fetch_ok_version r sys u (v + 1) a f hfind hnat o fsys hf
    cases o with
    | none =>
      dsimp only at h
      simp only [Prod.mk.injEq, Except.ok.injEq] at h
      obtain ⟨h1, -⟩ := h
      subst h1
      exact ⟨by simpa using hspec.1, fun d hd => by simp at hd⟩
    | some i =>
      dsimp only at h
      simp only [Prod.mk.injEq, Except.ok.injEq] at h
      obtain ⟨h1, -⟩ := h
      subst h1
      have hv : i.version = version_from_systime f.mtime := hspec.2 i rfl
      have hlt : ¬ version_from_systime f.mtime < v + 1 := by
        intro hcon
        have hnone := hspec.1.mpr hcon
        simp at hnone
      constructor
      · constructor
        · intro hn; simp at hn
        · intro hv2; exact absurd hv2 hlt
      · intro d hd
        simp only [Option.some.injEq] at hd
        subst hd
        exact ⟨by dsimp only; omega, by dsimp only; exact hv⟩

/-- Witness for C3 at a concrete registry: the native file's mtime is
2000000 ns (version 2), the caller holds version 0, and the returned data
carries version 2 ≥ 0. -/
theorem c3_witness :
    ((some (⟨[3], 2⟩ : AssetData) : Option AssetData) = none
        ↔ version_from_systime 2000000 < 0 + 1)
    ∧ ∀ d, (some (⟨[3], 2⟩ : AssetData) : Option AssetData) = some d →
        0 ≤ d.version ∧ d.version = version_from_systime 2000000 :=
  c3_fetch_updated_contract
    ⟨[.rootDir], [],
      [⟨7, [.normal "s"], "a", "b", [], [.rootDir, .normal "n"],
        [.rootDir, .normal "s"]⟩], []⟩
    ⟨[([.rootDir, .normal "n"], ⟨[3], 2000000⟩)], 0, [.rootDir]⟩
    7 0
    ⟨7, [.normal "s"], "a", "b", [], [.rootDir, .normal "n"],
      [.rootDir, .normal "s"]⟩
    ⟨[3], 2000000⟩ rfl rfl (some ⟨[3], 2⟩)
    ⟨[([.rootDir, .normal "n"], ⟨[3], 2000000⟩)], 0, [.rootDir]⟩ rfl

/-- Claim C1 (code bug): in the stale-reimport scenario the reimport
succeeds and rewrites the native file at mtime 3000000 ns, yet `fetch`
returns version 0 — `version_from_systime` of the mtime read before the
reimport — instead of a version computed from the final native mtime
(which would be 3), so the returned version is not strictly greater than
the pre-reimport version. -/
theorem c1_fetch_version_ignores_reimported_mtime :
    (Registry.fetch staleRegistry staleSys 7 0).1
      = .ok (some ⟨[.rootDir, .normal ".treasury", .normal "u7"], [2], 0⟩)
    ∧ fsLookup (Registry.fetch staleRegistry staleSys 7 0).2.fs
        [.rootDir, .normal ".treasury", .normal "u7"]
      = some ⟨[2], 3000000⟩
    ∧ version_from_systime 0 = 0
    ∧ version_from_systime 3000000 = 3 :=
  ⟨rfl, rfl, rfl, rfl⟩

/-- Claim C4 counterexample: on a fresh disk, `new(p, true)` succeeds but
writes no manifest (the manifest write in `Treasury::new` is commented out),
so `open(p)` directly afterwards fails with `GoodsOpenError` instead of
yielding a registry with an empty asset list. -/
theorem c4_counterexample :
    Treasury.new [Component.rootDir, Component.normal "R"] true ⟨[], []⟩
      = .ok (emptyRegistry [Component.rootDir, Component.normal "R"],
          ⟨[[Component.rootDir, Component.normal "R",
              Component.normal ".treasury"],
            [Component.rootDir, Component.normal "R"]], []⟩)
    ∧ Treasury.open' [Component.rootDir, Component.normal "R"]
        ⟨[[Component.rootDir, Component.normal "R",
            Component.normal ".treasury"],
          [Component.rootDir, Component.normal "R"]], []⟩
      = .error (.goodsOpenError
          (manifestPath [Component.rootDir, Component.normal "R"])) :=
  ⟨rfl, rfl⟩

theorem newStep2_ok_shape (root : FPath) (ov : Bool) (d1 : Disk)
    (reg : Registry) (d2 : Disk)
    (h : newStep2 root ov d1 = .ok (reg, d2)) :
    reg = emptyRegistry root
      ∧ root ++ [.normal treasuryDirName] ∈ d2.dirs := by
  simp only [newStep2] at h
  by_cases hex : d1.exists (root ++ [Component.normal treasuryDirName]) = true
  · rw [if_pos hex] at h
    by_cases hf : d1.isFile (root ++ [Component.normal treasuryDirName])
        = true
    · rw [if_pos hf] at h
      simp at h
    · rw [if_neg hf] at h
      by_cases hov : ¬ ov = true ∧ d1.isFile (manifestPath root) = true
      · rw [if_pos hov] at h
        simp at h
      · rw [if_neg hov] at h
        simp only [Except.ok.injEq, Prod.mk.injEq] at h
        obtain ⟨h1, h2⟩ := h
        subst h1; subst h2
        refine ⟨rfl, ?_⟩
        unfold Disk.exists at hex
        simp only [Bool.or_eq_true, decide_eq_true_eq] at hex
        rcases hex with hmem | hfile
        · exact hmem
        · exact absurd hfile (by simpa [Disk.isFile] using hf)
  · rw [if_neg hex] at h
    simp only [Except.ok.injEq, Prod.mk.injEq] at h
    obtain ⟨h1, h2⟩ := h
    subst h1; subst h2
    exact ⟨rfl, List.mem_cons_self _ _⟩

theorem new_ok_shape (p : FPath) (ov : Bool) (d : Disk) (reg : Registry)
    (d1 : Disk) (h : Treasury.new p ov d = .ok (reg, d1)) :
    reg = emptyRegistry p ∧ p ++ [.normal treasuryDirName] ∈ d1.dirs := by
  unfold Treasury.new at h
  by_cases h1 : ¬ d.exists p = true
  · rw [if_pos h1] at h
    exact newStep2_ok_shape _ _ _ _ _ h
  · rw [if_neg h1] at h
    by_cases h2 : ¬ d.isDir p = true
    · rw [if_pos h2] at h
      simp at h
    · rw [if_neg h2] at h
      exact newStep2_ok_shape _ _ _ _ _ h

/-- A successful `save` followed by `open` of the same root recovers the
catalog: every persisted field survives and the absolute paths are the
rehydrated ones. -/
theorem save_open_roundtrip (r : Registry) (d d2 : Disk)
    (h : Registry.save r d = .ok d2) :
    Treasury.open' r.root d2
      = .ok { root := r.root, importers_dirs := r.importers_dirs,
              assets := r.assets.map
                (fun a => rehydrateAsset r.root (persistAsset a)),
              importers := [] } := by
  unfold Registry.save at h
  split at h
  · simp only [Except.ok.injEq] at h
    subst h
    unfold Treasury.open' Disk.readFile Disk.writeFile
    dsimp only
    rw [List.find?_cons_of_pos _ (by simp)]
    dsimp only
    rw [List.map_map]
    rfl
  · exact absurd h (by simp)

/-- Claim C4, amended: `new(p, overwrite)` yields an empty registry and —
after an explicit `save`, which `new` does not perform — `open` succeeds
with an empty asset list; and in general `save` followed by `open` recovers
the same asset records up to absolute-path rehydration. -/
theorem c4_amended_roundtrip :
    (∀ (p : FPath) (ov : Bool) (d : Disk) (reg : Registry) (d1 : Disk),
      Treasury.new p ov d = .ok (reg, d1) →
      reg.root = p ∧ reg.assets = []
      ∧ ∃ d2, Registry.save reg d1 = .ok d2
          ∧ Treasury.open' p d2
            = .ok { root := p, importers_dirs := reg.importers_dirs,
                    assets := [], importers := [] })
    ∧ (∀ (r : Registry) (d d2 : Disk),
      Registry.save r d = .ok d2 →
      Treasury.open' r.root d2
        = .ok { root := r.root, importers_dirs := r.importers_dirs,
                assets := r.assets.map
                  (fun a => rehydrateAsset r.root (persistAsset a)),
                importers := [] }) := by
  constructor
  · intro p ov d reg d1 h
    obtain ⟨hreg, htp⟩ := new_ok_shape p ov d reg d1 h
    subst hreg
    have hsave : Registry.save (emptyRegistry p) d1
        = .ok (d1.writeFile (manifestPath p) ⟨[], []⟩) := by
      unfold Registry.save
      have hroot : (emptyRegistry p).root = p := rfl
      rw [hroot, if_pos htp]
      rfl
    refine ⟨rfl, rfl, _, hsave, ?_⟩
    exact save_open_roundtrip (emptyRegistry p) d1 _ hsave
  · exact fun r d d2 h => save_open_roundtrip r d d2 h

/-- Witness for C4 amended: a concrete `new`, `save`, `open` run on a fresh
disk, and a concrete `save` + `open` of a one-asset registry. -/
theorem c4_witness :
    ((emptyRegistry [Component.rootDir, Component.normal "R"]).root
        = [Component.rootDir, Component.normal "R"]
      ∧ (emptyRegistry [Component.rootDir, Component.normal "R"]).assets = []
      ∧ ∃ d2, Registry.save
            (emptyRegistry [Component.rootDir, Component.normal "R"])
            ⟨[[Component.rootDir, Component.normal "R",
                Component.normal ".treasury"],
              [Component.rootDir, Component.normal "R"]], []⟩ = .ok d2
          ∧ Treasury.open' [Component.rootDir, Component.normal "R"] d2
            = .ok { root := [Component.rootDir, Component.normal "R"],
                    importers_dirs := (emptyRegistry [Component.rootDir,
                      Component.normal "R"]).importers_dirs,
                    assets := [], importers := [] })
    ∧ Treasury.open'
        [Component.rootDir]
        ((⟨[[Component.rootDir, Component.normal ".treasury"]], []⟩ :
            Disk).writeFile (manifestPath [Component.rootDir])
          ⟨[], [⟨7, [Component.normal "s"], "a", "b", ["t"]⟩]⟩)
      = .ok { root := [Component.rootDir], importers_dirs := [],
              assets := [⟨7, [Component.normal "s"], "a", "b", ["t"],
                [Component.rootDir, Component.normal ".treasury",
                  Component.normal "7"],
                [Component.rootDir, Component.normal "s"]⟩],
              importers := [] } := by
  constructor
  · exact c4_amended_roundtrip.1 [Component.rootDir, Component.normal "R"]
      true ⟨[], []⟩ _ _ rfl
  · have h := c4_amended_roundtrip.2
      ⟨[Component.rootDir], [],
        [⟨7, [Component.normal "s"], "a", "b", ["t"],
          [Component.rootDir, Component.normal ".treasury",
            Component.normal "7"],
          [Component.rootDir, Component.normal "s"]⟩], []⟩
      ⟨[[Component.rootDir, Component.normal ".treasury"]], []⟩ _ rfl
    exact h

/-- Claim C6 counterexample: for `p = /x/y` and `r = /x/..` (absolute paths
sharing the non-empty prefix `/x`), joining `r` with `relative_to(p, r)` and
normalizing yields `/y`, not `p = /x/y` (nor its normalization, which is `p`
itself). -/
theorem c6_counterexample :
    normalize (pathJoin
        [Component.rootDir, Component.normal "x", Component.parentDir]
        (relative_to
          [Component.rootDir, Component.normal "x", Component.normal "y"]
          [Component.rootDir, Component.normal "x", Component.parentDir]))
      = [Component.rootDir, Component.normal "y"]
    ∧ ¬ normalize (pathJoin
        [Component.rootDir, Component.normal "x", Component.parentDir]
        (relative_to
          [Component.rootDir, Component.normal "x", Component.normal "y"]
          [Component.rootDir, Component.normal "x", Component.parentDir]))
      = [Component.rootDir, Component.normal "x", Component.normal "y"]
    ∧ normalize
        [Component.rootDir, Component.normal "x", Component.normal "y"]
      = [Component.rootDir, Component.normal "x", Component.normal "y"] := by
  refine ⟨rfl, ?_, rfl⟩
  decide

theorem commonPrefixLen_take : ∀ (p r : FPath),
    p.take (commonPrefixLen p r) = r.take (commonPrefixLen p r)
  | [], _ => by simp [commonPrefixLen]
  | _ :: _, [] => by simp [commonPrefixLen]
  | pc :: ps, rc :: rs => by
    unfold commonPrefixLen
    by_cases h : pc = rc
    · rw [if_pos h]
      simp only [List.take_succ_cons, h]
      rw [commonPrefixLen_take ps rs]
    · rw [if_neg h]
      simp

theorem foldl_normStep_normals (xs : List Component)
    (h : ∀ c ∈ xs, c.isNormal = true) :
    ∀ stack, List.foldl normStep stack xs = xs.reverse ++ stack := by
  induction xs with
  | nil => intro stack; rfl
  | cons c cs ih =>
    intro stack
    have hc := h c (List.mem_cons_self _ _)
    have hcs : ∀ x ∈ cs, x.isNormal = true :=
      fun x hx => h x (List.mem_cons_of_mem _ hx)
    cases c with
    | normal s =>
      rw [List.foldl_cons]
      rw [ih hcs]
      simp [normStep]
    | rootDir => simp [Component.isNormal] at hc
    | parentDir => simp [Component.isNormal] at hc

theorem foldl_normStep_parents : ∀ (xs stack : List Component),
    (∀ c ∈ xs, c.isNormal = true) →
    List.foldl normStep (xs ++ stack) (List.replicate xs.length
      Component.parentDir) = stack := by
  intro xs
  induction xs with
  | nil => intro stack h; rfl
  | cons c cs ih =>
    intro stack h
    have hc := h c (List.mem_cons_self _ _)
    have hcs : ∀ x ∈ cs, x.isNormal = true :=
      fun x hx => h x (List.mem_cons_of_mem _ hx)
    cases c with
    | normal s =>
      simp only [List.length_cons, List.replicate_succ, List.foldl_cons,
        List.cons_append]
      exact ih stack hcs
    | rootDir => simp [Component.isNormal] at hc
    | parentDir => simp [Component.isNormal] at hc

/-- The join-then-normalize round trip for canonical absolute paths, in
head-tail form. -/
theorem normalize_join_rel (pt rt : List Component)
    (hpt : ∀ c ∈ pt, c.isNormal = true)
    (hrt : ∀ c ∈ rt, c.isNormal = true) :
    normalize (pathJoin (Component.rootDir :: rt)
      (relative_to (Component.rootDir :: pt) (Component.rootDir :: rt)))
      = Component.rootDir :: pt := by
  have hcp : commonPrefixLen (Component.rootDir :: pt)
      (Component.rootDir :: rt) = commonPrefixLen pt rt + 1 := rfl
  have hrel : relative_to (Component.rootDir :: pt)
      (Component.rootDir :: rt)
      = List.replicate (rt.length - commonPrefixLen pt rt)
          Component.parentDir ++ pt.drop (commonPrefixLen pt rt) := by
    simp only [relative_to, hcp]
    rw [if_neg (Nat.succ_ne_zero _)]
    simp [Nat.succ_sub_succ]
  rw [hrel]
  have habs : FPath.isAbsolute (List.replicate
      (rt.length - commonPrefixLen pt rt)
      Component.parentDir ++ pt.drop (commonPrefixLen pt rt))
      = false := by
    unfold FPath.isAbsolute
    cases hk : rt.length - commonPrefixLen pt rt with
    | zero =>
      simp only [List.replicate, List.nil_append]
      cases hpq : pt.drop (commonPrefixLen pt rt) with
      | nil => simp
      | cons c cs =>
        have hc : c ∈ pt := List.mem_of_mem_drop
          (by rw [hpq]; exact List.mem_cons_self _ _)
        have := hpt c hc
        cases c <;> simp_all [Component.isNormal]
    | succ m => simp [List.replicate_succ]
  have hjoin : pathJoin (Component.rootDir :: rt)
      (List.replicate (rt.length - commonPrefixLen pt rt)
        Component.parentDir ++ pt.drop (commonPrefixLen pt rt))
      = (Component.rootDir :: rt)
        ++ (List.replicate (rt.length - commonPrefixLen pt rt)
          Component.parentDir ++ pt.drop (commonPrefixLen pt rt)) := by
    unfold pathJoin
    rw [habs]
    rfl
  rw [hjoin]
  unfold normalize
  rw [List.foldl_append, List.foldl_append]
  have h1 : List.foldl normStep [] (Component.rootDir :: rt)
      = rt.reverse ++ [Component.rootDir] := by
    rw [List.foldl_cons]
    exact foldl_normStep_normals rt hrt _
  rw [h1]
  have hsplit : rt.reverse ++ [Component.rootDir]
      = (rt.drop (commonPrefixLen pt rt)).reverse
        ++ ((rt.take (commonPrefixLen pt rt)).reverse
          ++ [Component.rootDir]) := by
    rw [← List.append_assoc, ← List.reverse_append,
      List.take_append_drop]
  rw [hsplit]
  have hlen : rt.length - commonPrefixLen pt rt
      = (rt.drop (commonPrefixLen pt rt)).reverse.length := by
    rw [List.length_reverse, List.length_drop]
  rw [hlen]
  rw [foldl_normStep_parents _ _
    (fun c hc => hrt c (List.mem_of_mem_drop (List.mem_reverse.mp hc)))]
  rw [foldl_normStep_normals _
    (fun c hc => hpt c (List.mem_of_mem_drop hc)) _]
  rw [← commonPrefixLen_take pt rt]
  rw [← List.append_assoc, ← List.reverse_append, List.take_append_drop]
  simp

/-- Claim C6, amended: `relative_to` returns `path` unchanged when the
common prefix is empty, and otherwise one `..` per component of `root` past
the prefix followed by the components of `path` past the prefix; and for
canonical absolute paths — no `..` components, as a successful
`canonicalize` produces — joining `root` with the result and normalizing
recovers `path`.  (With `..` components in the inputs the round trip fails,
see the counterexample.) -/
theorem c6_relative_to_spec :
    (∀ p r : FPath, commonPrefixLen p r = 0 → relative_to p r = p)
    ∧ (∀ p r : FPath, 0 < commonPrefixLen p r →
        relative_to p r
          = List.replicate (r.length - commonPrefixLen p r)
              Component.parentDir ++ p.drop (commonPrefixLen p r))
    ∧ (∀ p r : FPath, p.Canon → r.Canon →
        normalize (pathJoin r (relative_to p r)) = p) := by
  refine ⟨?_, ?_, ?_⟩
  · intro p r h
    simp only [relative_to, h]
    rfl
  · intro p r h
    simp only [relative_to]
    rw [if_neg (by omega)]
  · intro p r hp hr
    rcases p with _ | ⟨pc, pt⟩
    · simp [FPath.Canon] at hp
    rcases r with _ | ⟨rc, rt⟩
    · simp [FPath.Canon] at hr
    obtain ⟨hp1, hp2⟩ := hp
    obtain ⟨hr1, hr2⟩ := hr
    simp only [List.head?] at hp1 hr1
    injection hp1 with hp1
    injection hr1 with hr1
    subst hp1; subst hr1
    exact normalize_join_rel pt rt hp2 hr2

/-- Witness for C6 at concrete paths: an empty-prefix pair, a shared-prefix
pair, and a canonical round trip. -/
theorem c6_witness :
    relative_to [Component.normal "a"] [Component.normal "b"]
      = [Component.normal "a"]
    ∧ relative_to
        [Component.rootDir, Component.normal "a", Component.normal "b"]
        [Component.rootDir, Component.normal "a"]
      = List.replicate
          ([Component.rootDir, Component.normal "a"].length
            - commonPrefixLen
              [Component.rootDir, Component.normal "a", Component.normal "b"]
              [Component.rootDir, Component.normal "a"])
          Component.parentDir
        ++ [Component.rootDir, Component.normal "a",
            Component.normal "b"].drop
          (commonPrefixLen
            [Component.rootDir, Component.normal "a", Component.normal "b"]
            [Component.rootDir, Component.normal "a"])
    ∧ normalize (pathJoin [Component.rootDir, Component.normal "a"]
        (relative_to
          [Component.rootDir, Component.normal "a", Component.normal "b"]
          [Component.rootDir, Component.normal "a"]))
      = [Component.rootDir, Component.normal "a", Component.normal "b"] :=
  ⟨c6_relative_to_spec.1 _ _ (by decide),
   c6_relative_to_spec.2.1 _ _ (by decide),
   c6_relative_to_spec.2.2 _ _ (by decide) (by decide)⟩

theorem le_foldr_max (l : List Nat) : ∀ x ∈ l, x ≤ l.foldr max 0 := by
  induction l with
  | nil => intro x hx; simp at hx
  | cons y ys ih =>
    intro x hx
    rcases List.mem_cons.mp hx with rfl | hx2
    · exact Nat.le_max_left _ _
    · exact Nat.le_trans (ih x hx2) (Nat.le_max_right _ _)

theorem firstErrAt_none_of_all_ok {E A : Type} (ch : List (MFut E A))
    (hok : ∀ c ∈ ch, isErr c.result = false) (t : Nat) :
    firstErrAt ch t = none := by
  induction ch with
  | nil => rfl
  | cons c cs ih =>
    have hc := hok c (List.mem_cons_self _ _)
    have hcs : ∀ x ∈ cs, isErr x.result = false :=
      fun x hx => hok x (List.mem_cons_of_mem _ hx)
    unfold firstErrAt
    rcases hres : c.result with e | a
    · rw [hres] at hc; simp [isErr] at hc
    · split
      · exact ih hcs
      · exact ih hcs

theorem no_err_of_firstErrAt_none {E A : Type} (ch : List (MFut E A))
    (t : Nat) (hn : firstErrAt ch t = none) :
    ∀ c ∈ ch, c.time ≤ t → isErr c.result = false := by
  induction ch with
  | nil => intro c hc; simp at hc
  | cons c cs ih =>
    intro x hx hxt
    unfold firstErrAt at hn
    rcases List.mem_cons.mp hx with rfl | hx2
    · rw [if_pos hxt] at hn
      rcases hres : x.result with e | a
      · rw [hres] at hn; simp at hn
      · simp [isErr]
    · split at hn
      · rcases hres : c.result with e | a
        · rw [hres] at hn; simp at hn
        · rw [hres] at hn
          exact ih hn x hx2 hxt
      · exact ih hn x hx2 hxt

theorem joinStep_ok_of_all_ok {E A : Type} (ch : List (MFut E A))
    (hok : ∀ c ∈ ch, isErr c.result = false) :
    ∀ (fuel t : Nat), (∀ c ∈ ch, c.time ≤ t + fuel) →
      joinStep ch t (fuel + 1) = some (.ok (extractOks ch)) := by
  intro fuel
  induction fuel with
  | zero =>
    intro t hall
    unfold joinStep
    rw [firstErrAt_none_of_all_ok ch hok t]
    rw [if_pos (List.all_eq_true.mpr
      (fun c hc => decide_eq_true (by simpa using hall c hc)))]
  | succ n ih =>
    intro t hall
    unfold joinStep
    rw [firstErrAt_none_of_all_ok ch hok t]
    by_cases hcall : ch.all (fun c => c.time ≤ t) = true
    · rw [if_pos hcall]
    · rw [if_neg hcall]
      exact ih (t + 1) (fun c hc => by have := hall c hc; omega)

theorem joinStep_ok_inv {E A : Type} (ch : List (MFut E A)) :
    ∀ (fuel t : Nat) (l : List A), joinStep ch t fuel = some (.ok l) →
      (∀ c ∈ ch, isErr c.result = false) ∧ l = extractOks ch := by
  intro fuel
  induction fuel with
  | zero => intro t l h; simp [joinStep] at h
  | succ n ih =>
    intro t l h
    unfold joinStep at h
    rcases hfe : firstErrAt ch t with _ | e
    · rw [hfe] at h
      dsimp only at h
      split at h
      · next hcall =>
        simp only [Option.some.injEq, Except.ok.injEq] at h
        subst h
        refine ⟨?_, rfl⟩
        intro c hc
        exact no_err_of_firstErrAt_none ch t hfe c hc
          (by simpa using List.all_eq_true.mp hcall c hc)
      · exact ih _ _ h
    · rw [hfe] at h
      simp at h

theorem extractOks_map_ok {E A : Type} (tas : List (Nat × A)) :
    extractOks (tas.map (fun p => (⟨p.1, .ok p.2⟩ : MFut E A)))
      = tas.map Prod.snd := by
  induction tas with
  | nil => rfl
  | cons p ps ih =>
    simp only [List.map_cons, extractOks, List.filterMap_cons] at ih ⊢
    rw [show (Except.ok p.2 : Except E A).toOption = some p.2 from rfl]
    rw [ih]

/-- Claim C7: the `Sequence` decode — element decoders collected into
`TryJoinAll` — resolves to the element results in input order exactly when
every element future succeeds, independent of the completion times; in
particular, for any assignment of completion times to successful elements
the outcome is the values in input order. -/
theorem c7_sequence_decode_order (E A : Type) (ch : List (MFut E A))
    (l : List A) :
    (tryJoinAll ch = some (.ok l) →
      (∀ c ∈ ch, isErr c.result = false) ∧ l = extractOks ch)
    ∧ ((∀ c ∈ ch, isErr c.result = false) →
        tryJoinAll ch = some (.ok (extractOks ch)))
    ∧ (∀ (tas : List (Nat × A)),
        tryJoinAll (tas.map (fun p => (⟨p.1, .ok p.2⟩ : MFut E A)))
          = some (.ok (tas.map Prod.snd))) := by
  have hb : ∀ ch2 : List (MFut E A),
      (∀ c ∈ ch2, isErr c.result = false) →
      tryJoinAll ch2 = some (.ok (extractOks ch2)) := by
    intro ch2 hok
    unfold tryJoinAll
    exact joinStep_ok_of_all_ok ch2 hok _ 0
      (fun c hc => by
        have := le_foldr_max (ch2.map MFut.time) c.time
          (List.mem_map_of_mem _ hc)
        omega)
  refine ⟨?_, hb ch, ?_⟩
  · intro h
    exact joinStep_ok_inv ch _ _ _ h
  · intro tas
    have hok : ∀ c ∈ tas.map (fun p => (⟨p.1, .ok p.2⟩ : MFut E A)),
        isErr c.result = false := by
      intro c hc
      simp only [List.mem_map] at hc
      obtain ⟨p, -, rfl⟩ := hc
      rfl
    rw [hb _ hok, extractOks_map_ok]

/-- Witness for C7: two successful element futures whose completion order
(times 3 then 1) is the reverse of their input order still resolve to the
values in input order. -/
theorem c7_witness :
    tryJoinAll [(⟨3, .ok 10⟩ : MFut Unit Nat), ⟨1, .ok 20⟩]
      = some (.ok [10, 20])
    ∧ ((∀ c ∈ [(⟨3, .ok 10⟩ : MFut Unit Nat), ⟨1, .ok 20⟩],
          isErr c.result = false)
        ∧ [10, 20] = extractOks [(⟨3, .ok 10⟩ : MFut Unit Nat), ⟨1, .ok 20⟩])
    ∧ tryJoinAll [(⟨3, .ok 10⟩ : MFut Unit Nat), ⟨1, .ok 20⟩]
      = some (.ok (extractOks [(⟨3, .ok 10⟩ : MFut Unit Nat), ⟨1, .ok 20⟩])) := by
  refine ⟨?_, ?_, ?_⟩
  · exact (c7_sequence_decode_order Unit Nat
      [⟨3, .ok 10⟩, ⟨1, .ok 20⟩] [10, 20]).2.2 [(3, 10), (1, 20)]
  · exact (c7_sequence_decode_order Unit Nat
      [⟨3, .ok 10⟩, ⟨1, .ok 20⟩] [10, 20]).1 rfl
  · exact (c7_sequence_decode_order Unit Nat
      [⟨3, .ok 10⟩, ⟨1, .ok 20⟩] [10, 20]).2.1 (by decide)

end Goods
